import Mathlib

/-!
Verification of the Proof-of-History log core (`src/log.rs`).

The source is generic over external cryptographic libraries: SHA-256
(`sha2` crate), Ed25519 (`ring` crate) and a canonical byte encoding
(`bincode` crate).  Those libraries are outside the repository, so the
embedding abstracts them as parameters: a `Crypto` bundle holding the
hash function and the signature-verification predicate, a `Ser` bundle
holding the two encoders the code applies (`serialize(&data)` and
`serialize(&(data, to))`), and a `Keypair` whose `sign` field models
`Ed25519KeyPair::sign`.  Byte strings are modelled as `List Nat`.
Every function of `src/log.rs` is translated structurally below.
-/

namespace Log

/-- 32-byte SHA-256 digest (`pub type Sha256Hash = GenericArray<u8, U32>`),
modelled as a byte list. -/
abbrev Sha256Hash : Type := List Nat

/-- 32-byte Ed25519 public key (`pub type PublicKey`). -/
abbrev PublicKey : Type := List Nat

/-- 64-byte Ed25519 signature (`pub type Signature`). -/
abbrev Signature : Type := List Nat

/-- Abstract cryptographic primitives used by `log.rs`: `sha256` models the
`sha2` crate's SHA-256, and `edVerify` models
`ring::signature::verify(&ED25519, pk, msg, sig).is_ok()` (a total boolean:
`ring` returns `Result` and the code maps it with `is_ok`). -/
structure Crypto where
  sha256 : List Nat → List Nat
  edVerify : PublicKey → List Nat → Signature → Bool

/-- Abstract canonical encoder (`bincode::serialize`) for payload type `T`:
`data` is `serialize(&data)`, `pair` is `serialize(&(data, to))` as used by
`sign_transaction_data` and `verify_event`. -/
structure Ser (T : Type) where
  data : T → List Nat
  pair : T → PublicKey → List Nat

/-- An Ed25519 keypair: its public key and its (deterministic) signing
function, modelling `Ed25519KeyPair::sign`. -/
structure Keypair where
  pubkey : PublicKey
  sign : List Nat → Signature

/-- `enum Event<T> { Tick, Claim { key, data, sig }, Transaction { from, to, data, sig } }` -/
inductive Event (T : Type) where
  | Tick : Event T
  | Claim (key : PublicKey) (data : T) (sig : Signature) : Event T
  | Transaction (from_ : PublicKey) (to_ : PublicKey) (data : T) (sig : Signature) : Event T
deriving DecidableEq

/-- `struct Entry<T> { num_hashes: u64, end_hash: Sha256Hash, event: Event<T> }` -/
structure Entry (T : Type) where
  num_hashes : Nat
  end_hash : Sha256Hash
  event : Event T
deriving DecidableEq

/-- `Entry::new_tick(num_hashes, end_hash)` -/
def Entry.new_tick {T : Type} (num_hashes : Nat) (end_hash : Sha256Hash) : Entry T :=
  { num_hashes := num_hashes, end_hash := end_hash, event := Event.Tick }

/-- `get_pubkey(keypair)` -/
def get_pubkey (keypair : Keypair) : PublicKey :=
  keypair.pubkey

/-- `sign_serialized(data, keypair)`: serialize the data with bincode and sign. -/
def sign_serialized {T : Type} (S : Ser T) (data : T) (keypair : Keypair) : Signature :=
  keypair.sign (S.data data)

/-- `sign_transaction_data(data, keypair, to)`: sign `serialize(&(data, to))`,
i.e. `sign_serialized` applied to the pair `(data, to)`; `Ser.pair` is
bincode's encoding of that tuple. -/
def sign_transaction_data {T : Type} (S : Ser T) (data : T) (keypair : Keypair)
    (to_ : PublicKey) : Signature :=
  keypair.sign (S.pair data to_)

/-- `hash(val)`: SHA-256 of the input. -/
def hash (C : Crypto) (val : List Nat) : Sha256Hash :=
  C.sha256 val

/-- `extend_and_hash(end_hash, ty, val)`: hash of `end_hash || ty || val`. -/
def extend_and_hash (C : Crypto) (end_hash : Sha256Hash) (ty : Nat) (val : List Nat) :
    Sha256Hash :=
  hash C (end_hash ++ ty :: val)

/-- `hash_event(end_hash, event)`: identity for Tick; `extend_and_hash` with
tag 2 and the signature for Claim; tag 3 for Transaction. -/
def hash_event {T : Type} (C : Crypto) (end_hash : Sha256Hash) (event : Event T) :
    Sha256Hash :=
  match event with
  | Event.Tick => end_hash
  | Event.Claim _ _ sig => extend_and_hash C end_hash 2 sig
  | Event.Transaction _ _ _ sig => extend_and_hash C end_hash 3 sig

/-- The `for _ in 0..num_hashes { end_hash = hash(&end_hash) }` loop inside
`next_hash`, as an accumulating recursion. -/
def hashLoop (C : Crypto) (end_hash : Sha256Hash) : Nat → Sha256Hash
  | 0 => end_hash
  | Nat.succ k => hashLoop C (hash C end_hash) k

/-- `next_hash(start_hash, num_hashes, event)`: iterate `hash` and fold in the
event with `hash_event`. -/
def next_hash {T : Type} (C : Crypto) (start_hash : Sha256Hash) (num_hashes : Nat)
    (event : Event T) : Sha256Hash :=
  hash_event C (hashLoop C start_hash num_hashes) event

/-- `next_entry(start_hash, num_hashes, event)` -/
def next_entry {T : Type} (C : Crypto) (start_hash : Sha256Hash) (num_hashes : Nat)
    (event : Event T) : Entry T :=
  { num_hashes := num_hashes
    end_hash := next_hash C start_hash num_hashes event
    event := event }

/-- `next_entry_mut(start_hash, num_hashes, event)`: returns the new entry and
the advanced running hash (the Rust version overwrites `start_hash`). -/
def next_entry_mut {T : Type} (C : Crypto) (start_hash : Sha256Hash) (num_hashes : Nat)
    (event : Event T) : Entry T × Sha256Hash :=
  let entry := next_entry C start_hash num_hashes event
  (entry, entry.end_hash)

/-- `next_tick(start_hash, num_hashes)` -/
def next_tick {T : Type} (C : Crypto) (start_hash : Sha256Hash) (num_hashes : Nat) :
    Entry T :=
  next_entry C start_hash num_hashes Event.Tick

/-- `verify_signature(peer_public_key_bytes, msg_bytes, sig_bytes)` -/
def verify_signature (C : Crypto) (peer_public_key_bytes : PublicKey)
    (msg_bytes : List Nat) (sig_bytes : Signature) : Bool :=
  C.edVerify peer_public_key_bytes msg_bytes sig_bytes

/-- `verify_event(event)`: true for Tick; for Claim check the signature over
`serialize(&data)`; for Transaction over `serialize(&(data, to))`. -/
def verify_event {T : Type} (C : Crypto) (S : Ser T) (event : Event T) : Bool :=
  match event with
  | Event.Tick => true
  | Event.Claim key data sig => verify_signature C key (S.data data) sig
  | Event.Transaction from_ to_ data sig => verify_signature C from_ (S.pair data to_) sig

/-- `verify_entry(entry, start_hash)` -/
def verify_entry {T : Type} (C : Crypto) (S : Ser T) (entry : Entry T)
    (start_hash : Sha256Hash) : Bool :=
  verify_event C S entry.event &&
    (entry.end_hash == next_hash C start_hash entry.num_hashes entry.event)

/-- `verify_slice(events, start_hash)`: the parallel verifier (rayon), defined
on payload `Sha256Hash` only in the source.  The rayon pair stream
`genesis.par_iter().chain(events).zip(events)` is the zip of the
genesis-prefixed list with the list itself; `all` is the conjunction over it
(rayon's parallel `all` of a pure predicate computes the same conjunction). -/
def verify_slice (C : Crypto) (S : Ser Sha256Hash) (events : List (Entry Sha256Hash))
    (start_hash : Sha256Hash) : Bool :=
  let genesis : List (Entry Sha256Hash) := [Entry.new_tick 0 start_hash]
  let event_pairs := List.zip (genesis ++ events) events
  event_pairs.all fun p => verify_entry C S p.2 p.1.end_hash

/-- `verify_slice_seq(events, start_hash)`: the serial reference verifier. -/
def verify_slice_seq {T : Type} (C : Crypto) (S : Ser T) (events : List (Entry T))
    (start_hash : Sha256Hash) : Bool :=
  let genesis : List (Entry T) := [Entry.new_tick 0 start_hash]
  let event_pairs := List.zip (genesis ++ events) events
  event_pairs.all fun p => verify_entry C S p.2 p.1.end_hash

/-- `create_entries(start_hash, num_hashes, events)`: map `next_entry_mut`
over the events with a running hash. -/
def create_entries {T : Type} (C : Crypto) (start_hash : Sha256Hash) (num_hashes : Nat) :
    List (Event T) → List (Entry T)
  | [] => []
  | event :: events =>
    let p := next_entry_mut C start_hash num_hashes event
    p.1 :: create_entries C p.2 num_hashes events

/-- `create_ticks(start_hash, num_hashes, len)`: `len` ticks produced with a
running hash (`iter::repeat(Tick).take(len)` mapped with `next_entry_mut`). -/
def create_ticks (C : Crypto) (start_hash : Sha256Hash) (num_hashes : Nat) :
    Nat → List (Entry Sha256Hash)
  | 0 => []
  | Nat.succ len =>
    let p := next_entry_mut C start_hash num_hashes (Event.Tick : Event Sha256Hash)
    p.1 :: create_ticks C p.2 num_hashes len

/-- Sequential unfolding of the pair-stream conjunction: checks a chain of
entries against the running predecessor hash.  Proved equal to
`verify_slice_seq` below; used as proof infrastructure. -/
def verifyChainFrom {T : Type} (C : Crypto) (S : Ser T) (prev_hash : Sha256Hash) :
    List (Entry T) → Bool
  | [] => true
  | e :: es => verify_entry C S e prev_hash && verifyChainFrom C S e.end_hash es

/-- The `end_hash` of the last entry of a list, or the given anchor if the
list is empty: the hash a chain extension starts from. -/
def lastHash {T : Type} (a : Sha256Hash) : List (Entry T) → Sha256Hash
  | [] => a
  | e :: es => lastHash e.end_hash es

/-- Fallible encoder: `bincode::serialize` returns a `Result`, which
`verify_event` unwraps.  `none` models an encoder failure, whose unwrap would
panic. -/
structure SerR (T : Type) where
  data : T → Option (List Nat)
  pair : T → PublicKey → Option (List Nat)

/-- The total encoder a fallible encoder induces (meaningful when the encoder
never fails). -/
def SerR.proj {T : Type} (S : SerR T) : Ser T :=
  { data := fun d => (S.data d).getD []
    pair := fun d t => (S.pair d t).getD [] }

/-- `verify_event` refined with the fallible encoder: `none` models the panic
of the `unwrap()` calls on `serialize(...)`. -/
def verify_eventR {T : Type} (C : Crypto) (S : SerR T) (event : Event T) : Option Bool :=
  match event with
  | Event.Tick => some true
  | Event.Claim key data sig =>
    (S.data data).map fun m => verify_signature C key m sig
  | Event.Transaction from_ to_ data sig =>
    (S.pair data to_).map fun m => verify_signature C from_ m sig

/-- `verify_entry` refined with the fallible encoder. -/
def verify_entryR {T : Type} (C : Crypto) (S : SerR T) (entry : Entry T)
    (start_hash : Sha256Hash) : Option Bool :=
  (verify_eventR C S entry.event).map fun ok =>
    ok && (entry.end_hash == next_hash C start_hash entry.num_hashes entry.event)

/-- Short-circuiting conjunction over the pair stream, with the fallible
encoder: the iterator's `all` stops at the first false, so later panics are
not reached. -/
def allEntriesR {T : Type} (C : Crypto) (S : SerR T) :
    List (Entry T × Entry T) → Option Bool
  | [] => some true
  | p :: ps =>
    (verify_entryR C S p.2 p.1.end_hash).bind fun ok =>
      if ok then allEntriesR C S ps else some false

/-- `verify_slice_seq` refined with the fallible encoder. -/
def verify_slice_seqR {T : Type} (C : Crypto) (S : SerR T) (events : List (Entry T))
    (start_hash : Sha256Hash) : Option Bool :=
  let genesis : List (Entry T) := [Entry.new_tick 0 start_hash]
  allEntriesR C S (List.zip (genesis ++ events) events)

/-- Concrete crypto instance with an injective hash (prepend a byte) and a
signature check that always accepts. -/
def Cw : Crypto :=
  { sha256 := fun l => 0 :: l, edVerify := fun _ _ _ => true }

/-- Concrete crypto instance with the identity as hash and a signature check
that always rejects. -/
def Cid : Crypto :=
  { sha256 := fun l => l, edVerify := fun _ _ _ => false }

/-- Concrete encoder for digest payloads: bincode writes a 32-byte array as
its raw bytes and a tuple as the concatenation of its components. -/
def Sw : Ser Sha256Hash :=
  { data := fun d => d, pair := fun d t => d ++ t }

/-- Concrete keypair whose signing function prepends a byte to the message. -/
def kpw : Keypair :=
  { pubkey := [1], sign := fun m => 9 :: m }

/-- Concrete crypto whose signature check accepts exactly the signatures
produced by `kpw` on the claimed message. -/
def Cw8 : Crypto :=
  { sha256 := fun l => l, edVerify := fun _ m s => s == 9 :: m }

/-- Concrete fallible encoder that never fails. -/
def SRw : SerR Sha256Hash :=
  { data := fun d => some d, pair := fun d t => some (d ++ t) }

/-- A Tick entry used as a concrete chain element. -/
def e7 : Entry Sha256Hash :=
  { num_hashes := 0, end_hash := [1], event := Event.Tick }

/-- First entry of a concrete two-Claim chain rooted at the empty anchor. -/
def e7a : Entry Sha256Hash :=
  next_entry Cw [] 0 (Event.Claim [1] [] [4])

/-- Second entry of that chain. -/
def e7b : Entry Sha256Hash :=
  next_entry Cw e7a.end_hash 0 (Event.Claim [1] [] [5])

/-- The hashing loop of `next_hash` is function iteration. -/
theorem hashLoop_eq_iterate (C : Crypto) (h : Sha256Hash) (n : Nat) :
    hashLoop C h n = (hash C)^[n] h := by
  induction n generalizing h with
  | zero => rfl
  | succ k ih =>
    show hashLoop C (hash C h) k = _
    rw [ih, ← Function.iterate_succ_apply]

/-- The `all` over the zipped pair stream is the sequential chain check. -/
theorem zipAll_eq_chainFrom {T : Type} (C : Crypto) (S : Ser T) (p : Entry T)
    (es : List (Entry T)) :
    (List.zip (p :: es) es).all (fun q => verify_entry C S q.2 q.1.end_hash) =
      verifyChainFrom C S p.end_hash es := by
  induction es generalizing p with
  | nil => rfl
  | cons e es ih =>
    show (List.zip (p :: e :: es) (e :: es)).all _ = _
    rw [List.zip_cons_cons, List.all_cons, ih e]
    rfl

/-- The serial verifier equals the sequential chain check from the anchor. -/
theorem verify_slice_seq_eq_chainFrom {T : Type} (C : Crypto) (S : Ser T)
    (events : List (Entry T)) (a : Sha256Hash) :
    verify_slice_seq C S events a = verifyChainFrom C S a events := by
  have h := zipAll_eq_chainFrom C S (Entry.new_tick 0 a) events
  simpa [verify_slice_seq, Entry.new_tick] using h

/-- The parallel verifier equals the sequential chain check from the anchor. -/
theorem verify_slice_eq_chainFrom (C : Crypto) (S : Ser Sha256Hash)
    (events : List (Entry Sha256Hash)) (a : Sha256Hash) :
    verify_slice C S events a = verifyChainFrom C S a events := by
  have h := zipAll_eq_chainFrom C S (Entry.new_tick 0 a) events
  simpa [verify_slice, Entry.new_tick] using h

/-- The chain check splits over list append, handing over the last hash. -/
theorem chainFrom_append {T : Type} (C : Crypto) (S : Ser T) (a : Sha256Hash)
    (l1 l2 : List (Entry T)) :
    verifyChainFrom C S a (l1 ++ l2) =
      (verifyChainFrom C S a l1 && verifyChainFrom C S (lastHash a l1) l2) := by
  induction l1 generalizing a with
  | nil => simp [verifyChainFrom, lastHash]
  | cons e l1 ih => simp [verifyChainFrom, lastHash, ih, Bool.and_assoc]

/-- The chain check is the adjacent-pair relation along the list. -/
theorem chainFrom_iff_chain {T : Type} (C : Crypto) (S : Ser T) (p : Entry T)
    (es : List (Entry T)) :
    verifyChainFrom C S p.end_hash es = true ↔
      List.Chain (fun prev cur => verify_event C S cur.event = true ∧
          cur.end_hash = next_hash C prev.end_hash cur.num_hashes cur.event)
        p es := by
  induction es generalizing p with
  | nil => simp [verifyChainFrom]
  | cons e es ih =>
    simp [verifyChainFrom, List.chain_cons, verify_entry, Bool.and_eq_true,
      beq_iff_eq, ih e, and_assoc]

/-- C1: `verify_slice_seq(entries, anchor)` returns true iff, with a synthetic
predecessor entry whose `end_hash` is the anchor, every adjacent pair
`(prev, cur)` satisfies `verify_event(cur.event)` and
`cur.end_hash = next_hash(prev.end_hash, cur.num_hashes, cur.event)`; in
particular the empty slice verifies as true for every anchor. -/
theorem verify_slice_seq_iff_chain {T : Type} (C : Crypto) (S : Ser T)
    (start_hash : Sha256Hash) (events : List (Entry T)) :
    (verify_slice_seq C S events start_hash = true ↔
      List.Chain (fun prev cur => verify_event C S cur.event = true ∧
          cur.end_hash = next_hash C prev.end_hash cur.num_hashes cur.event)
        (Entry.new_tick 0 start_hash) events) ∧
    verify_slice_seq C S ([] : List (Entry T)) start_hash = true := by
  refine ⟨?_, rfl⟩
  rw [verify_slice_seq_eq_chainFrom]
  exact chainFrom_iff_chain C S (Entry.new_tick 0 start_hash) events

/-- C2: the parallel verifier `verify_slice` and the serial verifier
`verify_slice_seq` return the same verdict on every anchor and every slice of
entries with payload type `Sha256Hash`.  In the embedding the rayon pair
stream is the same zipped list and the parallel `all` of the pure predicate
is the same conjunction, so the two definitions agree definitionally. -/
theorem verify_slice_eq_verify_slice_seq (C : Crypto) (S : Ser Sha256Hash)
    (events : List (Entry Sha256Hash)) (start_hash : Sha256Hash) :
    verify_slice C S events start_hash = verify_slice_seq C S events start_hash :=
  rfl

/-- C3: `next_hash(a, n, e)` iterates `hash` on `a` exactly `n` times (`n = 0`
leaves `a` unchanged, since `f^[0] a = a`) and then folds in the event:
identity for Tick, `hash(base || 2 || sig)` for a Claim and
`hash(base || 3 || sig)` for a Transaction. -/
theorem next_hash_iterate_fold {T : Type} (C : Crypto) (a : Sha256Hash) (n : Nat)
    (key from_ to_ : PublicKey) (d : T) (s : Signature) :
    next_hash C a n (Event.Tick : Event T) = (hash C)^[n] a ∧
    next_hash C a n (Event.Claim key d s) = hash C ((hash C)^[n] a ++ 2 :: s) ∧
    next_hash C a n (Event.Transaction from_ to_ d s) =
      hash C ((hash C)^[n] a ++ 3 :: s) := by
  refine ⟨?_, ?_, ?_⟩ <;>
    simp [next_hash, hash_event, extend_and_hash, hashLoop_eq_iterate]

/-- Chains of ticks pass the sequential chain check from any starting hash. -/
theorem chainFrom_create_ticks (C : Crypto) (S : Ser Sha256Hash) (n : Nat) :
    ∀ (k : Nat) (a : Sha256Hash),
      verifyChainFrom C S a (create_ticks C a n k) = true := by
  intro k
  induction k with
  | zero => intro a; rfl
  | succ k ih =>
    intro a
    simp [create_ticks, next_entry_mut, verifyChainFrom, verify_entry,
      verify_event, next_entry, ih]

/-- C4: for every anchor `h`, every `num_hashes` value `n` and every length
`k`, the chain `create_ticks(h, n, k)` verifies as true against anchor `h`. -/
theorem verify_create_ticks (C : Crypto) (S : Ser Sha256Hash) (h : Sha256Hash)
    (n k : Nat) :
    verify_slice C S (create_ticks C h n k) h = true := by
  rw [verify_slice_eq_chainFrom]
  exact chainFrom_create_ticks C S n k h

/-- C5: verifying the singleton chain `[next_entry(h, n, e)]` against anchor
`h` returns exactly `verify_event(e)`: the hash-chain check of a freshly
produced entry passes unconditionally and the verdict reduces to the event's
signature check. -/
theorem verify_singleton_next_entry (C : Crypto) (S : Ser Sha256Hash)
    (h : Sha256Hash) (n : Nat) (e : Event Sha256Hash) :
    verify_slice C S [next_entry C h n e] h = verify_event C S e := by
  simp [verify_slice, Entry.new_tick, verify_entry, next_entry]

/-- C10: `create_ticks(h, n, len)` returns exactly the entries of
`create_entries(h, n, es)` where `es` is `len` copies of the Tick event. -/
theorem create_ticks_eq_create_entries (C : Crypto) (h : Sha256Hash)
    (n len : Nat) :
    create_ticks C h n len =
      create_entries C h n (List.replicate len (Event.Tick : Event Sha256Hash)) := by
  induction len generalizing h with
  | zero => rfl
  | succ k ih => simp [create_ticks, create_entries, List.replicate_succ, ih]

/-- If the hash is injective, so is the iteration loop in its start hash. -/
theorem hashLoop_injective (C : Crypto) (hinj : Function.Injective (hash C))
    (n : Nat) : Function.Injective fun b => hashLoop C b n := by
  induction n with
  | zero => exact fun a b h => h
  | succ k ih =>
    intro a b h
    have h' : hashLoop C (hash C a) k = hashLoop C (hash C b) k := h
    exact hinj (ih h')

/-- If the hash is injective, folding a fixed event is injective in the base:
for Tick it is the identity, and for Claim and Transaction it is the hash of
the base extended by a fixed suffix. -/
theorem hash_event_injective {T : Type} (C : Crypto)
    (hinj : Function.Injective (hash C)) (e : Event T) :
    Function.Injective fun b => hash_event C b e := by
  cases e with
  | Tick => exact fun a b h => h
  | Claim key d s =>
    intro a b h
    have h' : hash C (a ++ 2 :: s) = hash C (b ++ 2 :: s) := h
    exact List.append_cancel_right (hinj h')
  | Transaction f t d s =>
    intro a b h
    have h' : hash C (a ++ 3 :: s) = hash C (b ++ 3 :: s) := h
    exact List.append_cancel_right (hinj h')

/-- If the hash is injective, `next_hash` is injective in its start hash. -/
theorem next_hash_injective {T : Type} (C : Crypto)
    (hinj : Function.Injective (hash C)) (n : Nat) (e : Event T) :
    Function.Injective fun b => next_hash C b n e := by
  intro a b h
  exact hashLoop_injective C hinj n (hash_event_injective C hinj e h)

/-- C6: anchor sensitivity.  For distinct anchors `h ≠ hX` and any single
entry produced from `h` by `next_entry` (hence also by `next_tick`, which is
`next_entry` with Tick), verifying the singleton chain against the wrong
anchor `hX` returns false.  The hash is assumed injective, the idealization
of a collision-free SHA-256. -/
theorem verify_wrong_anchor_false (C : Crypto) (S : Ser Sha256Hash)
    (h hX : Sha256Hash) (n : Nat) (e : Event Sha256Hash) (hne : h ≠ hX)
    (hinj : Function.Injective (hash C)) :
    verify_slice C S [next_entry C h n e] hX = false := by
  have hdiff : next_hash C h n e ≠ next_hash C hX n e := by
    intro hcontra
    exact hne (next_hash_injective C hinj n e hcontra)
  have hb : (next_hash C h n e == next_hash C hX n e) = false :=
    beq_eq_false_iff_ne.mpr hdiff
  simp [verify_slice, Entry.new_tick, verify_entry, next_entry, hb]

/-- Witness for C6 at a concrete injective hash, distinct anchors `[0]` and
`[1]`, one iteration and a Tick event. -/
theorem verify_wrong_anchor_false_witness :
    ([0] : Sha256Hash) ≠ [1] ∧ Function.Injective (hash Cw) ∧
      verify_slice Cw Sw [next_entry Cw [0] 1 (Event.Tick : Event Sha256Hash)]
        [1] = false :=
  ⟨by decide, fun a b hab => by simpa [Cw, hash] using hab,
    verify_wrong_anchor_false Cw Sw [0] [1] 1 Event.Tick (by decide)
      (fun a b hab => by simpa [Cw, hash] using hab)⟩

/-- C7 counterexample: the chain `[e7, e7]` of two identical Tick entries
verifies as true against anchor `[1]`, and swapping the event fields of the
two adjacent entries (written out below as the entry-wise exchange, which for
equal events reproduces the same entries) still verifies as true, not false.
So swapping two adjacent events of a valid chain does not always make
verification fail. -/
theorem swap_adjacent_counterexample :
    verify_slice Cid Sw [e7, e7] [1] = true ∧
    verify_slice Cid Sw
      [{ num_hashes := e7.num_hashes, end_hash := e7.end_hash, event := e7.event },
       { num_hashes := e7.num_hashes, end_hash := e7.end_hash, event := e7.event }]
      [1] = true := by
  exact ⟨by decide, by decide⟩

/-- C7 amended: in a chain that verifies as true, swapping the event fields
of two adjacent entries (without recomputing any `end_hash`) yields a chain
that verifies as false, provided the two events are committed differently at
that point of the chain: `hash_event` at the hash iterated
`e1.num_hashes` times from the predecessor hash distinguishes the two
events.  (The counterexample of two equal Tick events shows some such
proviso is needed: swapping equal events is the identity.) -/
theorem swap_adjacent_distinct_commit_false (C : Crypto) (S : Ser Sha256Hash)
    (a : Sha256Hash) (pre post : List (Entry Sha256Hash))
    (e1 e2 : Entry Sha256Hash)
    (hv : verify_slice C S (pre ++ e1 :: e2 :: post) a = true)
    (hne : hash_event C (hashLoop C (lastHash a pre) e1.num_hashes) e1.event ≠
      hash_event C (hashLoop C (lastHash a pre) e1.num_hashes) e2.event) :
    verify_slice C S
      (pre ++ { e1 with event := e2.event } :: { e2 with event := e1.event } :: post)
      a = false := by
  rw [verify_slice_eq_chainFrom] at hv ⊢
  rw [chainFrom_append] at hv ⊢
  have hv2 : verifyChainFrom C S (lastHash a pre) (e1 :: e2 :: post) = true :=
    (Bool.and_eq_true_iff.mp hv).2
  have he1 : verify_entry C S e1 (lastHash a pre) = true := by
    have := (Bool.and_eq_true_iff.mp hv2).1
    exact this
  have hhash : e1.end_hash =
      hash_event C (hashLoop C (lastHash a pre) e1.num_hashes) e1.event := by
    have := (Bool.and_eq_true_iff.mp he1).2
    exact beq_iff_eq.mp this
  have hbad : (e1.end_hash ==
      hash_event C (hashLoop C (lastHash a pre) e1.num_hashes) e2.event) = false := by
    refine beq_eq_false_iff_ne.mpr ?_
    rw [hhash]
    exact hne
  have hfail : verifyChainFrom C S (lastHash a pre)
      ({ e1 with event := e2.event } :: { e2 with event := e1.event } :: post) =
        false := by
    simp [verifyChainFrom, verify_entry, next_hash, hbad]
  rw [hfail, Bool.and_false]

/-- Witness for C7 amended: a concrete two-Claim chain rooted at the empty
anchor, whose two events are committed differently, verifies as true; its
adjacent swap verifies as false. -/
theorem swap_adjacent_distinct_commit_false_witness :
    verify_slice Cw Sw [e7a, e7b] [] = true ∧
    hash_event Cw (hashLoop Cw (lastHash ([] : Sha256Hash)
        ([] : List (Entry Sha256Hash))) e7a.num_hashes) e7a.event ≠
      hash_event Cw (hashLoop Cw (lastHash ([] : Sha256Hash)
        ([] : List (Entry Sha256Hash))) e7a.num_hashes) e7b.event ∧
    verify_slice Cw Sw
      [{ e7a with event := e7b.event }, { e7b with event := e7a.event }] [] = false :=
  ⟨by decide, by decide,
    swap_adjacent_distinct_commit_false Cw Sw [] [] [] e7a e7b (by decide) (by decide)⟩

/-- C8: a Transaction whose signature was produced by
`sign_transaction_data(data, kp, to1)` but whose `to` field is replaced by a
different key `to2` fails `verify_event`, and any chain containing such an
entry verifies as false.  The destination is bound into the signed message:
the hypotheses state that the encodings of `(data, to1)` and `(data, to2)`
differ (the encoder is injective in the destination) and that a signature by
`kp` over one message never verifies against a different message. -/
theorem transaction_wrong_to_fails {T : Type} (C : Crypto) (S : Ser T)
    (kp : Keypair) (d : T) (to1 to2 : PublicKey)
    (hmsg : S.pair d to1 ≠ S.pair d to2)
    (hbind : ∀ m m2 : List Nat, m ≠ m2 →
      C.edVerify (get_pubkey kp) m2 (kp.sign m) = false) :
    verify_event C S (Event.Transaction (get_pubkey kp) to2 d
      (sign_transaction_data S d kp to1)) = false ∧
    ∀ (a eh : Sha256Hash) (n : Nat) (pre post : List (Entry T)),
      verify_slice_seq C S
        (pre ++ Entry.mk n eh (Event.Transaction (get_pubkey kp) to2 d
          (sign_transaction_data S d kp to1)) :: post) a = false := by
  have hev : verify_event C S (Event.Transaction (get_pubkey kp) to2 d
      (sign_transaction_data S d kp to1)) = false := by
    simpa [verify_event, verify_signature, sign_transaction_data] using
      hbind (S.pair d to1) (S.pair d to2) hmsg
  refine ⟨hev, ?_⟩
  intro a eh n pre post
  rw [verify_slice_seq_eq_chainFrom, chainFrom_append]
  simp [verifyChainFrom, verify_entry, hev]

/-- Witness for C8 at a concrete keypair whose verifier accepts exactly its
own signatures on the signed message, with destinations `[0]` and `[2]`. -/
theorem transaction_wrong_to_fails_witness :
    Sw.pair [5] [0] ≠ Sw.pair [5] [2] ∧
    verify_event Cw8 Sw (Event.Transaction (get_pubkey kpw) [2] [5]
      (sign_transaction_data Sw [5] kpw [0])) = false :=
  ⟨by decide,
    (transaction_wrong_to_fails Cw8 Sw kpw [5] [0] [2] (by decide)
      (fun m m2 hm => by
        have hc : (9 :: m : List Nat) ≠ 9 :: m2 := by
          intro hcc
          exact hm (List.cons_injective hcc)
        simpa [Cw8, kpw, get_pubkey] using beq_eq_false_iff_ne.mpr hc)).1⟩

/-- With a total encoder, the refined `verify_event` never panics and agrees
with the reference one. -/
theorem verify_eventR_eq {T : Type} (C : Crypto) (S : SerR T)
    (hd : ∀ d, (S.data d).isSome) (hp : ∀ d t, (S.pair d t).isSome)
    (e : Event T) :
    verify_eventR C S e = some (verify_event C (SerR.proj S) e) := by
  cases e with
  | Tick => rfl
  | Claim key d s =>
    obtain ⟨m, hm⟩ := Option.isSome_iff_exists.mp (hd d)
    simp [verify_eventR, verify_event, SerR.proj, hm]
  | Transaction f t d s =>
    obtain ⟨m, hm⟩ := Option.isSome_iff_exists.mp (hp d t)
    simp [verify_eventR, verify_event, SerR.proj, hm]

/-- With a total encoder, the refined `verify_entry` never panics and agrees
with the reference one. -/
theorem verify_entryR_eq {T : Type} (C : Crypto) (S : SerR T)
    (hd : ∀ d, (S.data d).isSome) (hp : ∀ d t, (S.pair d t).isSome)
    (e : Entry T) (b : Sha256Hash) :
    verify_entryR C S e b = some (verify_entry C (SerR.proj S) e b) := by
  rw [verify_entryR, verify_eventR_eq C S hd hp]
  rfl

/-- With a total encoder, the short-circuiting pair check never panics and
computes the conjunction of the reference pair checks. -/
theorem allEntriesR_eq {T : Type} (C : Crypto) (S : SerR T)
    (hd : ∀ d, (S.data d).isSome) (hp : ∀ d t, (S.pair d t).isSome)
    (ps : List (Entry T × Entry T)) :
    allEntriesR C S ps =
      some (ps.all fun q => verify_entry C (SerR.proj S) q.2 q.1.end_hash) := by
  induction ps with
  | nil => rfl
  | cons p ps ih =>
    cases hval : verify_entry C (SerR.proj S) p.2 p.1.end_hash with
    | false => simp [allEntriesR, verify_entryR_eq C S hd hp, hval]
    | true => simp [allEntriesR, verify_entryR_eq C S hd hp, hval, ih]

/-- C9: the verifier is total.  Serialization failure inside `verify_event`
is modelled as `none` (a panic of the `unwrap()`); when the encoder is total,
as bincode is on these well-typed values, the refined serial verifier returns
`some` of the reference verdict on every anchor and every entry slice: a
boolean, never an exception.  Signature verification is total by
construction: `verify_signature` maps ring's `Result` to a `Bool`. -/
theorem verifier_total_of_encoder_total {T : Type} (C : Crypto) (S : SerR T)
    (hd : ∀ d, (S.data d).isSome) (hp : ∀ d t, (S.pair d t).isSome) :
    ∀ (events : List (Entry T)) (a : Sha256Hash),
      verify_slice_seqR C S events a =
        some (verify_slice_seq C (SerR.proj S) events a) := by
  intro events a
  simp only [verify_slice_seqR, verify_slice_seq]
  rw [allEntriesR_eq C S hd hp]

/-- Witness for C9: a concrete never-failing encoder, a one-entry slice. -/
theorem verifier_total_of_encoder_total_witness :
    (∀ d, (SRw.data d).isSome) ∧ (∀ d t, (SRw.pair d t).isSome) ∧
    verify_slice_seqR Cw SRw [Entry.new_tick 0 []] [] =
      some (verify_slice_seq Cw (SerR.proj SRw) [Entry.new_tick 0 []] []) :=
  ⟨fun _ => rfl, fun _ _ => rfl,
    verifier_total_of_encoder_total Cw SRw (fun _ => rfl) (fun _ _ => rfl)
      [Entry.new_tick 0 []] []⟩

end Log
